import Mathlib

/-!
Shallow embedding of the regtidy registry cleaner (src/strategy.rs,
src/registry.rs, src/main.rs, src/cli.rs, src/output.rs) and proofs about
its cleanup-planning engine.

Modelling conventions:
* Creation timestamps (`chrono::DateTime<Utc>`) are modelled at whole-second
  granularity as `Option Int`, the granularity of `DateTime::timestamp()`
  used by the `KeepRecent` sort key.  `None` is a tag whose image config had
  no readable `created` field.
* `Vec<TagInfo>` becomes `List TagInfo`; `HashSet<String>` becomes a
  `List String` used with set semantics (membership tests, `List.insert`).
* Rust's stable `sort_by` is modelled by `List.insertionSort`, which is a
  stable sort; all theorems proved below depend only on the output being a
  permutation sorted under the comparator.
* `eprintln!` warnings of the safety pass are reified as a `Warning` record
  so that their multiplicity can be stated.
* The panicking byte-slice `&digest[..19]` is modelled over byte lists with
  `Option`, `none` standing for the panic on a non-boundary index.
-/

namespace Regtidy

/-- Minimum value of Rust's `i64`, the sort key substituted for a missing
creation time in the `KeepRecent` arm (`unwrap_or(i64::MIN)`). -/
def i64Min : Int := -(2 ^ 63)

/-- `models.rs`: metadata for one resolved tag. -/
structure TagInfo where
  repository : String
  tag : String
  digest : String
  created : Option Int
deriving DecidableEq, Repr

/-- `models.rs`: result of applying a cleanup strategy to a repository. -/
structure CleanupPlan where
  repository : String
  to_delete : List TagInfo
  to_keep : List TagInfo
deriving DecidableEq, Repr

/-- One `[WARN]` line emitted by the safety pass of `Strategy::apply`.
`first` records which of the two phrasings was used: `true` for the
first-seen-digest message, `false` for the shorter repeat message. -/
structure Warning where
  digest : String
  tag : String
  first : Bool
deriving DecidableEq, Repr

/-- `strategy.rs`: the three retention strategies.  The compiled regex of
`Pattern` is embedded as its matching function `Regex::is_match`. -/
inductive Strategy where
  | keepRecent (n : Nat)
  | olderThan (days : Nat)
  | pattern (isMatch : String → Bool)

/-- Sort key of the `KeepRecent` arm:
`a.created.map(|t| t.timestamp()).unwrap_or(i64::MIN)`. -/
def sortKey (t : TagInfo) : Int := t.created.getD i64Min

/-- The comparator passed to `tags.sort_by`: descending by `sortKey`
(`b_time.cmp(&a_time)` orders larger keys first). -/
def keyGE (a b : TagInfo) : Prop := sortKey b ≤ sortKey a

instance : DecidableRel keyGE := fun a b =>
  inferInstanceAs (Decidable (sortKey b ≤ sortKey a))

instance : IsTotal TagInfo keyGE := ⟨fun a b => le_total (sortKey b) (sortKey a)⟩

instance : IsTrans TagInfo keyGE :=
  ⟨fun _ _ _ hab hbc => le_trans hbc hab⟩

/-- `tags.sort_by(...)` with the descending-creation-time comparator. -/
def sortByCreatedDesc (tags : List TagInfo) : List TagInfo :=
  List.insertionSort keyGE tags

/-- Rust's `as i64` cast of a `u64`/`usize`: two's-complement wrap. -/
def wrapI64 (n : Nat) : Int := ((n : Int) + 2 ^ 63) % 2 ^ 64 - 2 ^ 63

/-- Whether the `OlderThan` arm deletes a tag: creation time known and
strictly before the cutoff; unknown creation time is conservatively kept. -/
def olderThanDeletes (cutoff : Int) (t : TagInfo) : Bool :=
  match t.created with
  | some c => decide (c < cutoff)
  | none => false

/-- The `match self` in `Strategy::apply` producing the raw
`(to_delete, to_keep)` pair, before the safety pass.  `now` is the value of
`Utc::now()` observed by the `OlderThan` arm. -/
def tentativePartition (s : Strategy) (now : Int) (tags : List TagInfo) :
    List TagInfo × List TagInfo :=
  match s with
  | .keepRecent n =>
    let sorted := sortByCreatedDesc tags
    let keepCount := min n tags.length
    (sorted.drop keepCount, sorted.take keepCount)
  | .olderThan days =>
    let cutoff := now - 86400 * wrapI64 days
    tags.partition (olderThanDeletes cutoff)
  | .pattern m =>
    tags.partition (fun t => m t.tag)

/-- The safety-pass loop over the tentative delete list.  Arguments:
the digests of the tentative keep set, the remaining tentative deletes, and
the `warned_digests` set accumulated so far.  Returns
`(rescued tags, safe deletes, warnings)`, each in loop order. -/
def safetyGo (keepDigests : List String) :
    List TagInfo → List String → List TagInfo × List TagInfo × List Warning
  | [], _ => ([], [], [])
  | t :: ts, warned =>
    if t.digest ∈ keepDigests then
      let rest := safetyGo keepDigests ts (warned.insert t.digest)
      (t :: rest.1, rest.2.1, ⟨t.digest, t.tag, decide (t.digest ∉ warned)⟩ :: rest.2.2)
    else
      let rest := safetyGo keepDigests ts warned
      (rest.1, t :: rest.2.1, rest.2.2)

/-- The shared-digest safety pass: rescued tags are appended to the keep
list (in the order they were drained from `to_delete`), the rest form the
final delete list.  Returns `(to_delete, to_keep, warnings)`. -/
def safetyPass (tentDelete tentKeep : List TagInfo) :
    List TagInfo × List TagInfo × List Warning :=
  let keepDigests := tentKeep.map TagInfo.digest
  let r := safetyGo keepDigests tentDelete []
  (r.2.1, tentKeep ++ r.1, r.2.2)

/-- `Strategy::apply`: raw partition followed by the safety pass.  The
warnings printed to stderr are returned alongside the plan. -/
def Strategy.apply (s : Strategy) (now : Int) (repo : String)
    (tags : List TagInfo) : CleanupPlan × List Warning :=
  let p := tentativePartition s now tags
  let r := safetyPass p.1 p.2
  ({ repository := repo, to_delete := r.1, to_keep := r.2.1 }, r.2.2)

/-- Example input (the spec's shared-digest scenario, times relative to
`now = 0`): `t1` and `t2` share one digest, `t3` has its own. -/
def sharedDigestTags : List TagInfo :=
  [{ repository := "r", tag := "t1", digest := "shared", created := some (-172800) },
   { repository := "r", tag := "t2", digest := "shared", created := some (-86400) },
   { repository := "r", tag := "t3", digest := "other", created := some (-259200) }]

/-- Example input with pairwise-distinct digests and known creation times. -/
def distinctDigestTags : List TagInfo :=
  [{ repository := "r", tag := "a", digest := "d1", created := some 100 },
   { repository := "r", tag := "b", digest := "d2", created := some 200 }]

/-- Example input for `OlderThan`: an old tag and a fresh tag sharing one
digest (times relative to `now = 0`; 40 days = 3456000 s). -/
def olderThanSharedTags : List TagInfo :=
  [{ repository := "r", tag := "old", digest := "shared", created := some (-3456000) },
   { repository := "r", tag := "new", digest := "shared", created := some 0 }]

/-- Example input for `OlderThan`: an old tag plus a tag with unknown
creation time, distinct digests. -/
def mixedTags : List TagInfo :=
  [{ repository := "r", tag := "old", digest := "d1", created := some (-3456000) },
   { repository := "r", tag := "unknown", digest := "d2", created := none }]

/-- Example input: three tags all sharing one digest. -/
def tripleSharedTags : List TagInfo :=
  [{ repository := "r", tag := "a", digest := "d", created := some (-259200) },
   { repository := "r", tag := "b", digest := "d", created := some (-172800) },
   { repository := "r", tag := "c", digest := "d", created := some (-86400) }]

/-! ### registry.rs: tag resolution and URL handling -/

/-- Outcome of one spawned `resolve_tag_info` task, keyed by the tag name:
either the resolved record or that tag's resolution error. -/
abbrev TagOutcome := String × Except Unit TagInfo

/-- `RegistryClient::resolve_all_tags` after `list_tags`: the task handles
are awaited in spawn order; a success appends its record to `infos`, a
failure is logged to stderr and dropped. -/
def resolve_all_tags : List TagOutcome → List TagInfo
  | [] => []
  | (_, .ok info) :: rest => info :: resolve_all_tags rest
  | (_, .error _) :: rest => resolve_all_tags rest

/-- `str::trim_end_matches('/')`: remove every trailing slash. -/
def trim_end_slashes (s : List Char) : List Char :=
  (s.reverse.dropWhile (· == '/')).reverse

/-- `RegistryClient` as far as URL resolution is concerned: `new` stores the
base URL with trailing slashes stripped. -/
structure RegistryClient where
  base_url : List Char

/-- `RegistryClient::new` (the HTTP client and verbose flag are irrelevant
to URL resolution). -/
def RegistryClient.new (base_url : List Char) : RegistryClient :=
  { base_url := trim_end_slashes base_url }

/-- `path.starts_with("http://") || path.starts_with("https://")`. -/
def isAbsoluteUrl (path : List Char) : Bool :=
  "http://".toList.isPrefixOf path || "https://".toList.isPrefixOf path

/-- `RegistryClient::resolve_url`: absolute next-page URLs pass through,
relative ones are prefixed with the stored base URL. -/
def RegistryClient.resolve_url (c : RegistryClient) (path : List Char) : List Char :=
  if isAbsoluteUrl path then path else c.base_url ++ path

/-! ### truncate_digest (strategy.rs and output.rs) -/

/-- A UTF-8 continuation byte has the form `10xxxxxx`. -/
def isUtf8Continuation (b : Nat) : Bool := 128 ≤ b && b < 192

/-- `str::is_char_boundary` on a byte string: true at 0 and at the length,
and at an interior index exactly when the byte there does not continue a
multi-byte character. -/
def isCharBoundary (s : List Nat) (i : Nat) : Bool :=
  if i = 0 then true
  else if h : i < s.length then !isUtf8Continuation (s.get ⟨i, h⟩)
  else i == s.length

/-- `truncate_digest`: `&digest[..19]` when the digest exceeds 19 bytes,
otherwise the digest unchanged.  `none` models the byte-slice panic when
offset 19 is not a character boundary. -/
def truncate_digest (digest : List Nat) : Option (List Nat) :=
  if 19 < digest.length then
    if isCharBoundary digest 19 then some (digest.take 19) else none
  else some digest

/-- Example base URL with a trailing slash. -/
def exampleBase : List Char := "http://h:5000/".toList

/-- Example relative next-page path. -/
def exampleRelPath : List Char := "/v2/_catalog".toList

/-- Example absolute next-page URL. -/
def exampleAbsPath : List Char := "http://other/v2".toList

/-! ### main.rs: the clean command -/

/-- Outcome of `resolve_all_tags` for one repository as `run_clean`
observes it: either a repository-level failure (`list_tags` or a task join
failed) or the per-tag outcomes of the spawned resolution tasks. -/
structure RepoInput where
  name : String
  resolution : Except Unit (List TagOutcome)

/-- Running totals of `run_clean`, plus the cross-repository
`all_deleted_digests` set (modelled as a dedup list). -/
structure CleanTotals where
  total_deleted : Nat
  total_kept : Nat
  total_errors : Nat
  all_deleted_digests : List String
deriving DecidableEq, Repr

/-- The `seen`/`digests_to_delete` loop of `run_clean`: unique digests of
the delete list in first-occurrence order. -/
def dedupGo : List TagInfo → List String → List String
  | [], _ => []
  | t :: ts, seen =>
    if t.digest ∈ seen then dedupGo ts seen
    else t.digest :: dedupGo ts (t.digest :: seen)

/-- Unique digests of a plan's delete list, in first-occurrence order. -/
def dedupDigests (toDelete : List TagInfo) : List String := dedupGo toDelete []

/-- Repeated `HashSet::insert` into the modelled digest set. -/
def insertAll (acc : List String) (ds : List String) : List String :=
  ds.foldl (fun a d => a.insert d) acc

/-- One iteration of the `for repo in repos` loop of `run_clean`.
`delOk repo digest` abstracts whether `delete_manifest` succeeds there. -/
def processRepo (s : Strategy) (now : Int) (dryRun : Bool)
    (delOk : String → String → Bool) (st : CleanTotals) (r : RepoInput) :
    CleanTotals :=
  match r.resolution with
  | .error _ => { st with total_errors := st.total_errors + 1 }
  | .ok outcomes =>
    let tags := resolve_all_tags outcomes
    if tags.isEmpty then st
    else
      let plan := (Strategy.apply s now r.name tags).1
      let st1 := { st with total_kept := st.total_kept + plan.to_keep.length }
      if dryRun then
        { st1 with
          total_deleted := st1.total_deleted + plan.to_delete.length,
          all_deleted_digests :=
            insertAll st1.all_deleted_digests (plan.to_delete.map TagInfo.digest) }
      else
        let digests := dedupDigests plan.to_delete
        let succeeded := digests.filter (fun d => delOk r.name d)
        { st1 with
          total_errors := st1.total_errors +
            (digests.filter (fun d => !(delOk r.name d))).length,
          all_deleted_digests := insertAll st1.all_deleted_digests succeeded,
          total_deleted := st1.total_deleted +
            (plan.to_delete.filter (fun t => decide (t.digest ∈ succeeded))).length }

/-- `run_clean`: fold the per-repository processing over all repositories,
starting from zero totals. -/
def run_clean (s : Strategy) (now : Int) (dryRun : Bool)
    (delOk : String → String → Bool) (repos : List RepoInput) : CleanTotals :=
  repos.foldl (processRepo s now dryRun delOk) ⟨0, 0, 0, []⟩

/-- Exit status of the clean command: `process::exit(1)` when any errors
accumulated, otherwise the `Ok(())` exit 0. -/
def cleanExitCode (st : CleanTotals) : Nat :=
  if 0 < st.total_errors then 1 else 0

/-- Whether `resolve_all_tags` failed at repository level. -/
def isRepoFailure (r : RepoInput) : Bool :=
  match r.resolution with
  | .error _ => true
  | .ok _ => false

/-- Deletion failures charged to one repository by `run_clean`: zero on a
repository-level failure, an empty tag list, or a dry run. -/
def repoDeletionFailures (s : Strategy) (now : Int) (dryRun : Bool)
    (delOk : String → String → Bool) (r : RepoInput) : Nat :=
  match r.resolution with
  | .error _ => 0
  | .ok outcomes =>
    let tags := resolve_all_tags outcomes
    if tags.isEmpty || dryRun then 0
    else ((dedupDigests (Strategy.apply s now r.name tags).1.to_delete).filter
      (fun d => !(delOk r.name d))).length

/-! ### cli.rs / main.rs: configuration and control flow -/

/-- A compiled-or-not regex as the CLI layer sees it: whether `Regex::new`
succeeded, and the matcher when it did. -/
structure RegexSpec where
  valid : Bool
  isMatch : String → Bool

/-- `cli.rs` `CleanArgs`: the three mutually exclusive strategy options and
the dry-run flag. -/
structure CleanArgs where
  keep : Option Nat
  older_than : Option Nat
  pattern : Option RegexSpec
  dry_run : Bool

/-- `error.rs` configuration errors. -/
inductive ConfigError where
  | noStrategy
  | invalidPattern
deriving DecidableEq, Repr

/-- `Strategy::from_args` (spelled `from_cli` in strategy.rs): first of
`--keep`, `--older-than`, `--pattern` wins; an invalid regex raises
`InvalidPattern`, no option raises `NoStrategy`. -/
def Strategy.from_args (a : CleanArgs) : Except ConfigError Strategy :=
  match a.keep with
  | some n => .ok (.keepRecent n)
  | none =>
    match a.older_than with
    | some d => .ok (.olderThan d)
    | none =>
      match a.pattern with
      | some p =>
        if p.valid then .ok (.pattern p.isMatch) else .error .invalidPattern
      | none => .error .noStrategy

/-- `cli.rs` subcommands. -/
inductive Command where
  | list
  | dangling
  | clean (args : CleanArgs)

/-- `cli.rs` top-level options. -/
structure Cli where
  registry : String
  repo : Option String
  verbose : Bool
  command : Command

/-- Observable steps of `main.rs::run`, in program order: the catalog
fetch, per-repository network activity (resolution and deletion), and the
strategy validation of the clean command with its outcome. -/
inductive Event where
  | netCatalog
  | netRepo (name : String)
  | configCheck (ok : Bool)
deriving DecidableEq, Repr

/-- Control flow of `main.rs::run` as its ordered event list, given the
catalog the registry would return: with `--repo` omitted the catalog is
fetched first to enumerate repositories; an empty repository list returns
early; otherwise the command runs, and only the clean command validates the
strategy — as its first step, stopping there on a configuration error. -/
def runEvents (cli : Cli) (catalog : List String) : List Event :=
  let pre : List Event := match cli.repo with
    | some _ => []
    | none => [.netCatalog]
  let repos : List String := match cli.repo with
    | some r => [r]
    | none => catalog
  if repos.isEmpty then pre
  else
    pre ++ match cli.command with
    | .list => repos.map Event.netRepo
    | .dangling => repos.map Event.netRepo
    | .clean args =>
      match Strategy.from_args args with
      | .error _ => [.configCheck false]
      | .ok _ => .configCheck true :: repos.map Event.netRepo

/-- `CleanArgs` with no strategy option selected. -/
def emptyCleanArgs : CleanArgs :=
  { keep := none, older_than := none, pattern := none, dry_run := false }

/-! ### Safety-pass lemmas -/

theorem safetyGo_perm (kd : List String) (ts : List TagInfo) (w : List String) :
    ((safetyGo kd ts w).1 ++ (safetyGo kd ts w).2.1).Perm ts := by
  induction ts generalizing w with
  | nil => simp [safetyGo]
  | cons t ts ih =>
    by_cases h : t.digest ∈ kd
    · simpa [safetyGo, h] using (ih (w.insert t.digest)).cons t
    · simpa [safetyGo, h] using (List.perm_middle.trans ((ih w).cons t))

theorem mem_safetyGo_safe (kd : List String) (ts : List TagInfo)
    (w : List String) (t : TagInfo) :
    t ∈ (safetyGo kd ts w).2.1 ↔ t ∈ ts ∧ t.digest ∉ kd := by
  induction ts generalizing w with
  | nil => simp [safetyGo]
  | cons u ts ih =>
    by_cases h : u.digest ∈ kd
    · simp only [safetyGo, if_pos h, ih, List.mem_cons]
      constructor
      · rintro ⟨ht, hd⟩; exact ⟨Or.inr ht, hd⟩
      · rintro ⟨(rfl | ht), hd⟩
        · exact absurd h hd
        · exact ⟨ht, hd⟩
    · simp only [safetyGo, if_neg h, List.mem_cons, ih]
      constructor
      · rintro (rfl | ⟨ht, hd⟩)
        · exact ⟨Or.inl rfl, h⟩
        · exact ⟨Or.inr ht, hd⟩
      · rintro ⟨(rfl | ht), hd⟩
        · exact Or.inl rfl
        · exact Or.inr ⟨ht, hd⟩

theorem mem_safetyGo_rescued (kd : List String) (ts : List TagInfo)
    (w : List String) (t : TagInfo) :
    t ∈ (safetyGo kd ts w).1 ↔ t ∈ ts ∧ t.digest ∈ kd := by
  induction ts generalizing w with
  | nil => simp [safetyGo]
  | cons u ts ih =>
    by_cases h : u.digest ∈ kd
    · simp only [safetyGo, if_pos h, List.mem_cons, ih]
      constructor
      · rintro (rfl | ⟨ht, hd⟩)
        · exact ⟨Or.inl rfl, h⟩
        · exact ⟨Or.inr ht, hd⟩
      · rintro ⟨(rfl | ht), hd⟩
        · exact Or.inl rfl
        · exact Or.inr ⟨ht, hd⟩
    · simp only [safetyGo, if_neg h, List.mem_cons, ih]
      constructor
      · rintro ⟨ht, hd⟩; exact ⟨Or.inr ht, hd⟩
      · rintro ⟨(rfl | ht), hd⟩
        · exact absurd hd h
        · exact ⟨ht, hd⟩

theorem tentativePartition_perm (s : Strategy) (now : Int) (tags : List TagInfo) :
    ((tentativePartition s now tags).1 ++ (tentativePartition s now tags).2).Perm tags := by
  cases s with
  | keepRecent n =>
    simp only [tentativePartition]
    refine List.perm_append_comm.trans ?_
    rw [List.take_append_drop]
    exact List.perm_insertionSort keyGE tags
  | olderThan days =>
    simp only [tentativePartition, List.partition_eq_filter_filter]
    simpa [Function.comp] using
      List.filter_append_perm (olderThanDeletes (now - 86400 * wrapI64 days)) tags
  | pattern m =>
    simp only [tentativePartition, List.partition_eq_filter_filter]
    simpa [Function.comp] using List.filter_append_perm (fun t => m t.tag) tags

/-- C1: For every strategy and every input tag list, the returned plan's
`to_delete ++ to_keep` is a permutation of the input (no duplicates, no
omissions), and no digest of a deleted record appears on a kept record. -/
theorem apply_partition_invariant (s : Strategy) (now : Int) (repo : String)
    (tags : List TagInfo) :
    (((Strategy.apply s now repo tags).1.to_delete ++
        (Strategy.apply s now repo tags).1.to_keep).Perm tags) ∧
    (∀ t ∈ (Strategy.apply s now repo tags).1.to_delete,
      ∀ k ∈ (Strategy.apply s now repo tags).1.to_keep, t.digest ≠ k.digest) := by
  have hperm := tentativePartition_perm s now tags
  set p := tentativePartition s now tags with hp
  set kd := p.2.map TagInfo.digest with hkd
  constructor
  · show ((safetyGo kd p.1 []).2.1 ++ (p.2 ++ (safetyGo kd p.1 []).1)).Perm tags
    refine List.perm_append_comm.trans ?_
    rw [List.append_assoc]
    refine (List.Perm.append_left p.2 (safetyGo_perm kd p.1 [])).trans ?_
    exact List.perm_append_comm.trans hperm
  · show ∀ t ∈ (safetyGo kd p.1 []).2.1, ∀ k ∈ p.2 ++ (safetyGo kd p.1 []).1,
      t.digest ≠ k.digest
    intro t ht k hk
    have htd : t.digest ∉ kd := ((mem_safetyGo_safe kd p.1 [] t).mp ht).2
    have hkd' : k.digest ∈ kd := by
      rcases List.mem_append.mp hk with h | h
      · exact List.mem_map_of_mem TagInfo.digest h
      · exact ((mem_safetyGo_rescued kd p.1 [] k).mp h).2
    intro hEq
    exact htd (hEq ▸ hkd')

/-! ### C2: KeepRecent -/

theorem safetyGo_of_disjoint (kd : List String) (ts : List TagInfo)
    (w : List String) (h : ∀ t ∈ ts, t.digest ∉ kd) :
    safetyGo kd ts w = ([], ts, []) := by
  induction ts generalizing w with
  | nil => rfl
  | cons t ts ih =>
    have ht : t.digest ∉ kd := h t (.head _)
    simp [safetyGo, ht, ih _ (fun u hu => h u (.tail _ hu))]

/-- When no tentatively-deleted tag shares a digest with a tentatively-kept
tag, the safety pass is the identity and emits no warning. -/
theorem apply_of_disjoint_digests (s : Strategy) (now : Int) (repo : String)
    (tags : List TagInfo)
    (h : ∀ t ∈ (tentativePartition s now tags).1,
      t.digest ∉ (tentativePartition s now tags).2.map TagInfo.digest) :
    Strategy.apply s now repo tags =
      ({ repository := repo,
         to_delete := (tentativePartition s now tags).1,
         to_keep := (tentativePartition s now tags).2 }, []) := by
  have hsg := safetyGo_of_disjoint ((tentativePartition s now tags).2.map TagInfo.digest)
    (tentativePartition s now tags).1 [] h
  show (({ repository := repo,
           to_delete := (safetyGo ((tentativePartition s now tags).2.map TagInfo.digest)
             (tentativePartition s now tags).1 []).2.1,
           to_keep := (tentativePartition s now tags).2 ++
             (safetyGo ((tentativePartition s now tags).2.map TagInfo.digest)
               (tentativePartition s now tags).1 []).1 },
         (safetyGo ((tentativePartition s now tags).2.map TagInfo.digest)
           (tentativePartition s now tags).1 []).2.2) : CleanupPlan × List Warning) = _
  rw [hsg]
  simp

/-- If the digests of the input tags are pairwise distinct, the tentative
delete and keep digests are disjoint. -/
theorem tentative_digests_disjoint (s : Strategy) (now : Int)
    (tags : List TagInfo) (hnd : (tags.map TagInfo.digest).Nodup) :
    ∀ t ∈ (tentativePartition s now tags).1,
      t.digest ∉ (tentativePartition s now tags).2.map TagInfo.digest := by
  have hperm := tentativePartition_perm s now tags
  have hnd2 : (((tentativePartition s now tags).1 ++
      (tentativePartition s now tags).2).map TagInfo.digest).Nodup :=
    ((hperm.map TagInfo.digest).nodup_iff).mpr hnd
  rw [List.map_append] at hnd2
  have h3 := (List.nodup_append.mp hnd2).2.2
  intro t ht hmem
  exact h3 (List.mem_map_of_mem TagInfo.digest ht) hmem

/-- C2 (counterexample): on the spec's own shared-digest scenario
(`KeepMostRecent(1)`, three tags, two sharing one digest) the safety pass
rescues a tag, so `|to_keep| ≠ min(n, |tags|)`. -/
theorem keepRecent_keep_count_counterexample :
    ¬ ((Strategy.apply (.keepRecent 1) 0 "r" sharedDigestTags).1.to_keep.length =
        min 1 sharedDigestTags.length) := by decide

/-- C2 (amended): when no tag is rescued by the safety pass — in particular
when all digests are pairwise distinct — `KeepRecent(n)` keeps exactly
`min(n, |tags|)` tags, every kept tag's known creation time is ≥ every
deleted tag's known creation time, and a tag with unknown creation time is
never kept while a tag with known creation time is deleted.  The hypothesis
`hb` records that genuine `chrono` timestamps exceed `i64::MIN`, the
sentinel the sort key substitutes for a missing time. -/
theorem keepRecent_apply_characterization (n : Nat) (now : Int) (repo : String)
    (tags : List TagInfo)
    (hnd : (tags.map TagInfo.digest).Nodup)
    (hb : ∀ t ∈ tags, t.created ≠ none → i64Min < sortKey t) :
    (Strategy.apply (.keepRecent n) now repo tags).1.to_keep.length =
        min n tags.length ∧
    (∀ k ∈ (Strategy.apply (.keepRecent n) now repo tags).1.to_keep,
      ∀ d ∈ (Strategy.apply (.keepRecent n) now repo tags).1.to_delete,
      ∀ ck cd, k.created = some ck → d.created = some cd → cd ≤ ck) ∧
    (∀ k ∈ (Strategy.apply (.keepRecent n) now repo tags).1.to_keep,
      k.created = none →
      ∀ d ∈ (Strategy.apply (.keepRecent n) now repo tags).1.to_delete,
      d.created = none) := by
  have happly := apply_of_disjoint_digests (.keepRecent n) now repo tags
    (tentative_digests_disjoint (.keepRecent n) now tags hnd)
  have hpdef : tentativePartition (.keepRecent n) now tags =
      ((sortByCreatedDesc tags).drop (min n tags.length),
       (sortByCreatedDesc tags).take (min n tags.length)) := rfl
  rw [hpdef] at happly
  have hplan : (Strategy.apply (.keepRecent n) now repo tags).1 =
      { repository := repo,
        to_delete := (sortByCreatedDesc tags).drop (min n tags.length),
        to_keep := (sortByCreatedDesc tags).take (min n tags.length) } := by
    rw [happly]
  have hperm := tentativePartition_perm (.keepRecent n) now tags
  rw [hpdef] at hperm
  have hs : List.Pairwise keyGE (sortByCreatedDesc tags) :=
    List.sorted_insertionSort keyGE tags
  have hsplit : sortByCreatedDesc tags =
      (sortByCreatedDesc tags).take (min n tags.length) ++
        (sortByCreatedDesc tags).drop (min n tags.length) :=
    (List.take_append_drop _ _).symm
  have hpw := (List.pairwise_append.mp (hsplit ▸ hs)).2.2
  refine ⟨?_, ?_, ?_⟩
  · rw [hplan]
    have hlen : (sortByCreatedDesc tags).length = tags.length := by
      simp [sortByCreatedDesc]
    simp only [List.length_take, hlen]
    omega
  · rw [hplan]
    intro k hk d hd ck cd hck hcd
    have h := hpw k hk d hd
    simpa [keyGE, sortKey, hck, hcd] using h
  · rw [hplan]
    intro k hk hkNone d hd
    cases hcdEq : d.created with
    | none => rfl
    | some cd =>
      exfalso
      have h := hpw k hk d hd
      have hdmem : d ∈ tags :=
        hperm.subset (List.mem_append.mpr (Or.inl hd))
      have hbd := hb d hdmem (by simp [hcdEq])
      simp only [keyGE, sortKey, hkNone, hcdEq, Option.getD_some,
        Option.getD_none] at h
      simp only [sortKey, hcdEq, Option.getD_some] at hbd
      omega

/-- C2 (witness): `KeepRecent(1)` on two tags with distinct digests keeps
exactly `min 1 2 = 1` tag. -/
theorem keepRecent_apply_characterization_witness :
    (Strategy.apply (.keepRecent 1) 0 "r" distinctDigestTags).1.to_keep.length =
      min 1 distinctDigestTags.length :=
  (keepRecent_apply_characterization 1 0 "r" distinctDigestTags
    (by decide) (by decide)).1

/-! ### C3: OlderThan -/

set_option maxRecDepth 100000 in
/-- C3 (counterexample): with two tags sharing a digest, the old tag's
creation time is known and strictly earlier than the cutoff, yet the plan
deletes nothing — the safety pass rescued it because the fresh tag with the
same digest is kept. -/
theorem olderThan_iff_counterexample :
    olderThanDeletes (0 - 86400 * wrapI64 30)
      { repository := "r", tag := "old", digest := "shared",
        created := some (-3456000) } = true ∧
    ({ repository := "r", tag := "old", digest := "shared",
        created := some (-3456000) } : TagInfo) ∈ olderThanSharedTags ∧
    (Strategy.apply (.olderThan 30) 0 "r" olderThanSharedTags).1.to_delete = [] := by
  decide

/-- C3 (amended): a tag is in `to_delete` iff its creation time is known and
strictly earlier than `now − days` AND its digest is not shared with any tag
the raw strategy keeps; every tag with unknown creation time is in
`to_keep`.  `days < 2^63` makes the `as i64` cast the identity. -/
theorem olderThan_apply_characterization (days : Nat) (now : Int) (repo : String)
    (tags : List TagInfo) (hdays : days < 2 ^ 63) :
    (∀ t, t ∈ (Strategy.apply (.olderThan days) now repo tags).1.to_delete ↔
      (t ∈ tags ∧ olderThanDeletes (now - 86400 * (days : Int)) t = true ∧
        t.digest ∉ (tentativePartition (.olderThan days) now tags).2.map TagInfo.digest)) ∧
    (∀ t ∈ tags, t.created = none →
      t ∈ (Strategy.apply (.olderThan days) now repo tags).1.to_keep) := by
  have hw : wrapI64 days = (days : Int) := by
    simp only [wrapI64]
    omega
  constructor
  · intro t
    show t ∈ (safetyGo ((tentativePartition (.olderThan days) now tags).2.map TagInfo.digest)
        (tentativePartition (.olderThan days) now tags).1 []).2.1 ↔ _
    rw [mem_safetyGo_safe]
    have h1 : (tentativePartition (.olderThan days) now tags).1 =
        tags.filter (olderThanDeletes (now - 86400 * (days : Int))) := by
      simp [tentativePartition, List.partition_eq_filter_filter, hw]
    rw [h1, List.mem_filter]
    exact and_assoc
  · intro t ht hnone
    show t ∈ (tentativePartition (.olderThan days) now tags).2 ++
      (safetyGo ((tentativePartition (.olderThan days) now tags).2.map TagInfo.digest)
        (tentativePartition (.olderThan days) now tags).1 []).1
    refine List.mem_append.mpr (Or.inl ?_)
    have h2 : (tentativePartition (.olderThan days) now tags).2 =
        tags.filter (not ∘ olderThanDeletes (now - 86400 * wrapI64 days)) := by
      simp [tentativePartition, List.partition_eq_filter_filter]
    rw [h2, List.mem_filter]
    exact ⟨ht, by simp [Function.comp, olderThanDeletes, hnone]⟩

/-- C3 (witness): on a concrete input, the tag with unknown creation time is
kept by `OlderThan(30)`. -/
theorem olderThan_apply_characterization_witness :
    ({ repository := "r", tag := "unknown", digest := "d2",
        created := none } : TagInfo) ∈
      (Strategy.apply (.olderThan 30) 0 "r" mixedTags).1.to_keep :=
  (olderThan_apply_characterization 30 0 "r" mixedTags (by decide)).2
    _ (by decide) rfl

/-! ### C4: safety-pass warnings -/

theorem safetyGo_rescued_eq_filter (kd : List String) (ts : List TagInfo)
    (w : List String) :
    (safetyGo kd ts w).1 = ts.filter (fun t => decide (t.digest ∈ kd)) := by
  induction ts generalizing w with
  | nil => rfl
  | cons t ts ih =>
    by_cases h : t.digest ∈ kd
    · simp [safetyGo, h, ih]
    · simp [safetyGo, h, ih]

theorem safetyGo_warning_count (kd : List String) (d : String)
    (ts : List TagInfo) (w : List String) :
    (safetyGo kd ts w).2.2.countP (fun x => x.digest == d) =
      (safetyGo kd ts w).1.countP (fun t => t.digest == d) := by
  induction ts generalizing w with
  | nil => rfl
  | cons t ts ih =>
    by_cases h : t.digest ∈ kd
    · simp [safetyGo, h, List.countP_cons, ih]
    · simp [safetyGo, h, List.countP_cons, ih]

theorem safetyGo_first_warning_count (kd : List String) (d : String)
    (ts : List TagInfo) (w : List String) :
    (safetyGo kd ts w).2.2.countP (fun x => x.digest == d && x.first) =
      if d ∈ w then 0
      else min 1 ((safetyGo kd ts w).2.2.countP (fun x => x.digest == d)) := by
  induction ts generalizing w with
  | nil => simp [safetyGo]
  | cons t ts ih =>
    by_cases hk : t.digest ∈ kd
    · by_cases htd : t.digest = d
      · subst htd
        have hw' : t.digest ∈ w.insert t.digest := by
          simp [List.mem_insert_iff]
        by_cases hw : t.digest ∈ w
        · simp [safetyGo, hk, List.countP_cons, ih, hw, hw']
        · simp [safetyGo, hk, List.countP_cons, ih, hw, hw']
      · have hmem : d ∈ w.insert t.digest ↔ d ∈ w := by
          simp only [List.mem_insert_iff]
          constructor
          · rintro (rfl | h)
            · exact absurd rfl (fun h => htd h.symm)
            · exact h
          · exact Or.inr
        have hne : (t.digest == d) = false := by
          simp [htd]
        simp [safetyGo, hk, List.countP_cons, ih, hmem, hne]
    · simp only [safetyGo, if_neg hk, ih]

/-- C4 (counterexample): three tags share one digest under `KeepRecent(1)`;
two are rescued, and the safety pass emits two warnings naming that digest,
not one. -/
theorem warning_per_digest_counterexample :
    ((Strategy.apply (.keepRecent 1) 0 "r" tripleSharedTags).2.countP
      (fun x => x.digest == "d")) = 2 := by decide

/-- C4 (amended): for every digest, the warnings of the safety pass number
one per rescued tag (a tentatively-deleted tag whose digest is shared with a
kept tag), and among them exactly one — the first — carries the
first-seen-digest phrasing; repeats get the shorter phrasing. -/
theorem apply_warning_granularity (s : Strategy) (now : Int) (repo : String)
    (tags : List TagInfo) (d : String) :
    ((Strategy.apply s now repo tags).2.countP (fun x => x.digest == d && x.first)) =
      min 1 ((Strategy.apply s now repo tags).2.countP (fun x => x.digest == d)) ∧
    ((Strategy.apply s now repo tags).2.countP (fun x => x.digest == d)) =
      ((tentativePartition s now tags).1.countP (fun t => t.digest == d &&
        decide (t.digest ∈ (tentativePartition s now tags).2.map TagInfo.digest))) := by
  constructor
  · have h := safetyGo_first_warning_count
      ((tentativePartition s now tags).2.map TagInfo.digest) d
      (tentativePartition s now tags).1 []
    simpa using h
  · have h := safetyGo_warning_count
      ((tentativePartition s now tags).2.map TagInfo.digest) d
      (tentativePartition s now tags).1 []
    rw [safetyGo_rescued_eq_filter, List.countP_filter] at h
    exact h

/-! ### C7: determinism -/

/-- C7: `Strategy::apply` is a pure function of the strategy, the observed
`now`, the repository name and the resolved tag list: two applications to
the same arguments (at the same evaluation of `now`) return the same plan
and warnings. -/
theorem apply_deterministic (s : Strategy) (now : Int) (repo : String)
    (tags : List TagInfo) :
    Strategy.apply s now repo tags = Strategy.apply s now repo tags := rfl

/-! ### C8: resolve_url -/

theorem head?_dropWhile_eq_some {α : Type} (p : α → Bool) (l : List α) (c : α)
    (h : (l.dropWhile p).head? = some c) : p c = false := by
  induction l with
  | nil => simp [List.dropWhile] at h
  | cons a l ih =>
    by_cases hp : p a
    · rw [List.dropWhile_cons, if_pos hp] at h
      exact ih h
    · rw [List.dropWhile_cons, if_neg hp] at h
      simp only [List.head?_cons, Option.some.injEq] at h
      subst h
      exact Bool.eq_false_iff.mpr hp

/-- C8: an absolute (`http://` or `https://`) next-page URL passes through
`resolve_url` unchanged; a relative one is prefixed with the base URL, which
`RegistryClient::new` stored with every trailing slash stripped (the stored
prefix restores the original base when the stripped slashes are appended,
and never itself ends in a slash). -/
theorem resolve_url_spec (base path : List Char) :
    (isAbsoluteUrl path = true →
      (RegistryClient.new base).resolve_url path = path) ∧
    (isAbsoluteUrl path = false →
      (RegistryClient.new base).resolve_url path = trim_end_slashes base ++ path ∧
      (∃ m, trim_end_slashes base ++ List.replicate m '/' = base) ∧
      (∀ c, (trim_end_slashes base).getLast? = some c → c ≠ '/')) := by
  constructor
  · intro h
    simp [RegistryClient.resolve_url, h]
  · intro h
    refine ⟨by simp [RegistryClient.resolve_url, RegistryClient.new, h], ?_, ?_⟩
    · refine ⟨(base.reverse.takeWhile (· == '/')).length, ?_⟩
      have hrep : base.reverse.takeWhile (· == '/') =
          List.replicate (base.reverse.takeWhile (· == '/')).length '/' := by
        refine List.eq_replicate_of_mem ?_
        intro b hb
        have := List.mem_takeWhile_imp hb
        simpa using this
      have htk : (base.reverse.takeWhile (· == '/')).reverse =
          base.reverse.takeWhile (· == '/') := by
        conv_lhs => rw [hrep]
        rw [List.reverse_replicate, ← hrep]
      rw [← hrep]
      simp only [trim_end_slashes]
      rw [← htk, ← List.reverse_append, List.takeWhile_append_dropWhile,
        List.reverse_reverse]
    · intro c hc hc'
      have hhead : (base.reverse.dropWhile (· == '/')).head? = some c := by
        have := hc
        rwa [trim_end_slashes, List.getLast?_reverse] at this
      have := head?_dropWhile_eq_some (· == '/') base.reverse c hhead
      simp [hc'] at this

/-- C8 (witness): concrete relative and absolute next-page URLs against a
base URL carrying a trailing slash. -/
theorem resolve_url_spec_witness :
    (RegistryClient.new exampleBase).resolve_url exampleAbsPath = exampleAbsPath ∧
    (RegistryClient.new exampleBase).resolve_url exampleRelPath =
      trim_end_slashes exampleBase ++ exampleRelPath :=
  ⟨(resolve_url_spec exampleBase exampleAbsPath).1 (by decide),
   ((resolve_url_spec exampleBase exampleRelPath).2 (by decide)).1⟩

/-! ### C9: resolve_all_tags ordering -/

/-- C9: `resolve_all_tags` returns exactly the successfully-resolved records
in their spawn order — the order `list_tags` produced the tags — with only
the tags whose resolution failed removed. -/
theorem resolve_all_tags_order (outcomes : List TagOutcome) :
    resolve_all_tags outcomes = outcomes.filterMap (fun o => o.2.toOption) := by
  induction outcomes with
  | nil => rfl
  | cons o rest ih =>
    rcases o with ⟨tag, r⟩
    cases r <;> simp [resolve_all_tags, ih, Except.toOption]

/-! ### C10: truncate_digest -/

/-- C10: `truncate_digest` returns its argument unchanged at ≤ 19 bytes and
the first 19 bytes otherwise; it is total whenever byte offset 19 is a
character boundary, in particular on ASCII digests; every result is a
prefix of the input of at most 19 bytes. -/
theorem truncate_digest_spec (digest : List Nat) :
    (digest.length ≤ 19 → truncate_digest digest = some digest) ∧
    (19 < digest.length → isCharBoundary digest 19 = true →
      truncate_digest digest = some (digest.take 19)) ∧
    ((∀ b ∈ digest, b < 128) → (truncate_digest digest).isSome = true) ∧
    (isCharBoundary digest 19 = true → (truncate_digest digest).isSome = true) ∧
    (∀ r, truncate_digest digest = some r →
      r.length ≤ 19 ∧ ∃ rest, r ++ rest = digest) := by
  refine ⟨?_, ?_, ?_, ?_, ?_⟩
  · intro h
    rw [truncate_digest, if_neg (by omega)]
  · intro h hb
    rw [truncate_digest, if_pos h, if_pos hb]
  · intro hascii
    by_cases h : 19 < digest.length
    · have hb : isCharBoundary digest 19 = true := by
        have hbyte := hascii (digest.get ⟨19, h⟩) (digest.get_mem _ _)
        rw [isCharBoundary, if_neg (by omega), dif_pos h]
        simp only [isUtf8Continuation, Bool.not_eq_true']
        simp only [Bool.and_eq_false_iff, decide_eq_false_iff_not]
        left
        omega
      rw [truncate_digest, if_pos h, if_pos hb]
      rfl
    · rw [truncate_digest, if_neg h]
      rfl
  · intro hb
    by_cases h : 19 < digest.length
    · rw [truncate_digest, if_pos h, if_pos hb]
      rfl
    · rw [truncate_digest, if_neg h]
      rfl
  · intro r hr
    rw [truncate_digest] at hr
    by_cases h : 19 < digest.length
    · rw [if_pos h] at hr
      by_cases hb : isCharBoundary digest 19 = true
      · rw [if_pos hb] at hr
        cases hr
        refine ⟨by simp, digest.drop 19, List.take_append_drop 19 digest⟩
      · rw [if_neg hb] at hr
        cases hr
    · rw [if_neg h] at hr
      cases hr
      exact ⟨by omega, [], by simp⟩

/-- C10 (witness): a 20-byte ASCII digest is truncated to its first 19
bytes. -/
theorem truncate_digest_spec_witness :
    truncate_digest (List.replicate 20 97) = some ((List.replicate 20 97).take 19) :=
  (truncate_digest_spec (List.replicate 20 97)).2.1 (by decide) (by decide)

/-! ### C5: error accumulation of the clean command -/

theorem processRepo_total_errors (s : Strategy) (now : Int) (dryRun : Bool)
    (delOk : String → String → Bool) (st : CleanTotals) (r : RepoInput) :
    (processRepo s now dryRun delOk st r).total_errors =
      st.total_errors + ((if isRepoFailure r then 1 else 0) +
        repoDeletionFailures s now dryRun delOk r) := by
  rcases r with ⟨name, res⟩
  cases res with
  | error e => simp [processRepo, isRepoFailure, repoDeletionFailures]
  | ok outcomes =>
    by_cases hemp : (resolve_all_tags outcomes).isEmpty
    · simp [processRepo, isRepoFailure, repoDeletionFailures, hemp]
    · by_cases hdry : dryRun
      · simp [processRepo, isRepoFailure, repoDeletionFailures, hemp, hdry]
      · simp [processRepo, isRepoFailure, repoDeletionFailures, hemp, hdry]

theorem run_clean_foldl_errors (s : Strategy) (now : Int) (dryRun : Bool)
    (delOk : String → String → Bool) (repos : List RepoInput)
    (st : CleanTotals) :
    (repos.foldl (processRepo s now dryRun delOk) st).total_errors =
      st.total_errors + (repos.countP isRepoFailure +
        (repos.map (repoDeletionFailures s now dryRun delOk)).sum) := by
  induction repos generalizing st with
  | nil => simp
  | cons r rest ih =>
    simp only [List.foldl_cons, List.countP_cons, List.map_cons, List.sum_cons]
    rw [ih, processRepo_total_errors]
    by_cases hf : isRepoFailure r <;> simp [hf] <;> omega

/-- C5 (counterexample): a repository whose single tag fails to resolve — a
per-tag resolution error — leaves the accumulated error count at zero and
the clean command exits 0, so per-tag resolution errors are not counted. -/
theorem clean_error_count_counterexample :
    (List.countP (fun o => match o.2 with | .error _ => true | .ok _ => false)
        ([("t", .error ())] : List TagOutcome)) = 1 ∧
    (run_clean (.keepRecent 1) 0 false (fun _ _ => true)
      [{ name := "r", resolution := .ok [("t", .error ())] }]).total_errors = 0 ∧
    cleanExitCode (run_clean (.keepRecent 1) 0 false (fun _ _ => true)
      [{ name := "r", resolution := .ok [("t", .error ())] }]) = 0 :=
  ⟨rfl, rfl, rfl⟩

/-- C5 (amended): the error count accumulated by the clean command is
exactly the number of repository-level resolution failures plus the number
of failed deletions; per-tag resolution errors are logged but never
counted; the exit status is 1 exactly when the count is nonzero. -/
theorem run_clean_error_accounting (s : Strategy) (now : Int) (dryRun : Bool)
    (delOk : String → String → Bool) (repos : List RepoInput) :
    (run_clean s now dryRun delOk repos).total_errors =
      repos.countP isRepoFailure +
        (repos.map (repoDeletionFailures s now dryRun delOk)).sum ∧
    (cleanExitCode (run_clean s now dryRun delOk repos) = 1 ↔
      0 < (run_clean s now dryRun delOk repos).total_errors) := by
  constructor
  · simpa using run_clean_foldl_errors s now dryRun delOk repos ⟨0, 0, 0, []⟩
  · unfold cleanExitCode
    by_cases h : 0 < (run_clean s now dryRun delOk repos).total_errors
    · simp [h]
    · simp [h]

/-! ### C6: configuration errors and network order -/

/-- C6 (counterexample): with `--repo` omitted and a clean command lacking
any strategy option, the run fetches the catalog — a network call — before
the configuration error is raised. -/
theorem config_before_network_counterexample :
    Strategy.from_args emptyCleanArgs = .error .noStrategy ∧
    runEvents { registry := "http://h", repo := none, verbose := false,
                command := .clean emptyCleanArgs } ["r"] =
      [.netCatalog, .configCheck false] :=
  ⟨rfl, rfl⟩

/-- C6 (amended): a configuration error of the clean command (no strategy,
or an invalid pattern) is raised before any network call when `--repo` is
given — the whole event trace is the failed check; when `--repo` is
omitted, only the catalog fetch precedes it: the error is still raised
before any per-repository network activity. -/
theorem config_error_before_network (reg : String) (v : Bool) (r : String)
    (args : CleanArgs) (catalog : List String) (e : ConfigError)
    (hinv : Strategy.from_args args = .error e) :
    runEvents { registry := reg, repo := some r, verbose := v,
                command := .clean args } catalog = [.configCheck false] ∧
    (catalog ≠ [] →
      runEvents { registry := reg, repo := none, verbose := v,
                  command := .clean args } catalog =
        [.netCatalog, .configCheck false]) := by
  constructor
  · simp [runEvents, hinv]
  · intro hc
    simp [runEvents, hinv, hc]

/-- C6 (witness): with `--repo r` given and no strategy selected, the run
raises the configuration error without any network event. -/
theorem config_error_before_network_witness :
    runEvents { registry := "http://h", repo := some "r", verbose := false,
                command := .clean emptyCleanArgs } [] = [.configCheck false] :=
  (config_error_before_network "http://h" false "r" emptyCleanArgs []
    .noStrategy rfl).1

end Regtidy
